import Mathlib

/-!
Shallow embedding of `src/script.js` (the noise-toy engine): the
Wichmann–Hill generator, the matrix (grid) abstraction, the blob kernel
builder, and the per-frame animate step.

Modelling conventions:
* JS numbers are modelled exactly: `ℚ` for the generator and the generic
  grid theorems, `ℝ` for the kernel builder (which uses `Math.sqrt`) and
  the animate step (which uses `**` with a float exponent, modelled by
  `Real.rpow`).
* A JS array with `width`/`height` properties is a `Mat α`: the `cells`
  store is a total function from the flat integer index; `length` tracks
  the JS array length, which grows to `i+1` when an index `i ≥ length`
  is assigned (assigning a negative index creates a plain property and
  leaves `length` alone).  Array holes are not modelled: reading an index
  that was never written returns the store's current value there.
* `x % y` on JS numbers truncates toward zero; `jsFmod` models it on `ℚ`.
-/

/-- State of the Wichmann–Hill generator: fields `s1`, `s2`, `s3` of the
`WichmannHillGenerator` class. -/
structure WHState where
  s1 : ℤ
  s2 : ℤ
  s3 : ℤ
deriving DecidableEq, Repr

/-- Truncation toward zero on `ℚ`, as JS `%` uses. -/
def ratTrunc (q : ℚ) : ℤ := if 0 ≤ q then ⌊q⌋ else ⌈q⌉

/-- JS `a % b` on numbers: `a - b * trunc (a / b)`. -/
def jsFmod (a b : ℚ) : ℚ := a - b * (ratTrunc (a / b) : ℚ)

/-- `WichmannHillGenerator.next`: updates the three congruential states and
returns the combined fractional value.  JS `%` on integers truncates toward
zero, hence `Int.tmod`.  Returns `(drawn value, updated state)`. -/
def whNext (g : WHState) : ℚ × WHState :=
  let s1 := Int.tmod (171 * g.s1) 30269
  let s2 := Int.tmod (172 * g.s2) 30307
  let s3 := Int.tmod (170 * g.s3) 30323
  (jsFmod ((s1 : ℚ) / 30269 + (s2 : ℚ) / 30307 + (s3 : ℚ) / 30323) 1, ⟨s1, s2, s3⟩)

/-- `validateWichmannHillStateInteger`: asserts that the component is an
integer (`Number.isInteger`, i.e. denominator 1), is `≥ 1` and `≤ 30000`.
A failed assertion (a throw) is `none`. -/
def validateWichmannHillStateInteger (x : ℚ) : Option ℚ :=
  if x.den = 1 then
    if 1 ≤ x then
      if x ≤ 30000 then some x else none
    else none
  else none

/-- `WichmannHillGenerator.with(state)`: validates each component of the
3-element seed, then stores them as the initial state (`with` is a Lean
keyword, hence `withSeed`).  A validated component has denominator 1, so
its integer value is its numerator. -/
def withSeed (seed : ℚ × ℚ × ℚ) : Option WHState :=
  match validateWichmannHillStateInteger seed.1,
        validateWichmannHillStateInteger seed.2.1,
        validateWichmannHillStateInteger seed.2.2 with
  | some a, some b, some c => some ⟨a.num, b.num, c.num⟩
  | _, _, _ => none

/-! ## The matrix (grid) abstraction -/

/-- A JS array produced by `makeMatrix`: `width`/`height` properties, the
JS `length`, and the cell store as a total function on integer indices. -/
structure Mat (α : Type) where
  width : ℕ
  height : ℕ
  length : ℕ
  cells : ℤ → α

/-- `makeMatrix(width, height, initialValue = 0)`:
`new Array(width * height).fill(initialValue)` with the two dimension
properties. -/
def makeMatrix (width height : ℕ) (initialValue : α) : Mat α :=
  ⟨width, height, width * height, fun _ => initialValue⟩

/-- `copyMatrix`: `matrix.slice()` plus the dimension properties. -/
def copyMatrix (m : Mat α) : Mat α :=
  ⟨m.width, m.height, m.length, m.cells⟩

/-- The flat index used by `getXY` and `setXY`: `y * matrix.height + x`.
Note it is keyed to `height`, not `width`. -/
def cellIndex (m : Mat α) (x y : ℤ) : ℤ := y * (m.height : ℤ) + x

/-- `getXY(matrix, x, y)`: read `matrix[y * matrix.height + x]`. -/
def getXY (m : Mat α) (x y : ℤ) : α := m.cells (cellIndex m x y)

/-- Assignment `matrix[i] = v` on a JS array: the store is updated at `i`;
`length` becomes `i + 1` when `0 ≤ i` and `length ≤ i`. -/
def setFlat (m : Mat α) (i : ℤ) (v : α) : Mat α :=
  ⟨m.width, m.height,
   if 0 ≤ i ∧ (m.length : ℤ) ≤ i then i.toNat + 1 else m.length,
   fun j => if j = i then v else m.cells j⟩

/-- `setXY(matrix, x, y, value)`: write `matrix[y * matrix.height + x]`. -/
def setXY (m : Mat α) (x y : ℤ) (v : α) : Mat α :=
  setFlat m (cellIndex m x y) v

/-- The iteration order of the nested loops `for x … for y …`:
`x` outer, `y` inner. -/
def pairList (w h : ℕ) : List (ℕ × ℕ) :=
  (List.range w).bind fun x => (List.range h).map fun y => (x, y)

/-- One iteration of the `mapMatrix` loop body:
`setXY(newMatrix, x, y, fn(getXY(matrix, x, y), x, y))`, reading from the
original matrix `m`. -/
def mapStep (m : Mat α) (fn : α → ℕ → ℕ → α) (acc : Mat α) (p : ℕ × ℕ) : Mat α :=
  setXY acc (p.1 : ℤ) (p.2 : ℤ) (fn (getXY m (p.1 : ℤ) (p.2 : ℤ)) p.1 p.2)

/-- `mapMatrix(matrix, fn)`: copy, then write `fn(old, x, y)` at every
`(x, y)` with `x < width`, `y < height`. -/
def mapMatrix (m : Mat α) (fn : α → ℕ → ℕ → α) : Mat α :=
  (pairList m.width m.height).foldl (mapStep m fn) (copyMatrix m)

/-- The JS reduction step `(x, y) => x > y ? x : y` of `maxValueOf`. -/
def jsMax [LinearOrder α] (x y : α) : α := if y < x then x else y

/-- `maxValueOf(array)`: `array.reduce((x, y) => x > y ? x : y)` — seed is
element 0, folding over elements `1 … length - 1`. -/
def maxValueOf [LinearOrder α] (m : Mat α) : α :=
  (((List.range m.length).drop 1).map (fun i : ℕ => m.cells (i : ℤ))).foldl
    jsMax (m.cells 0)

/-- `normalizeMatrix(matrix)`: `mapMatrix(matrix, x => x / max)` where
`max = maxValueOf(matrix)` is computed once up front. -/
def normalizeMatrix [LinearOrder α] [Div α] (m : Mat α) : Mat α :=
  mapMatrix m (fun x _ _ => x / maxValueOf m)

/-- One iteration of the `addMatrix` loop body: skip (`continue`) when
`x + offsetX ≥ dst.width` or `y + offsetY ≥ dst.height`, else accumulate
`dest[...] += source[...]`. -/
def addStep [Add α] (src : Mat α) (offsetX offsetY : ℤ) (acc : Mat α)
    (p : ℕ × ℕ) : Mat α :=
  if (acc.width : ℤ) ≤ (p.1 : ℤ) + offsetX then acc
  else if (acc.height : ℤ) ≤ (p.2 : ℤ) + offsetY then acc
  else
    setXY acc ((p.1 : ℤ) + offsetX) ((p.2 : ℤ) + offsetY)
      (getXY acc ((p.1 : ℤ) + offsetX) ((p.2 : ℤ) + offsetY) +
        getXY src (p.1 : ℤ) (p.2 : ℤ))

/-- `addMatrix(matrixSrc, matrixDst, offsetX, offsetY)`: additive blit with
upper-bound clipping only. -/
def addMatrix [Add α] (src dst : Mat α) (offsetX offsetY : ℤ) : Mat α :=
  (pairList src.width src.height).foldl (addStep src offsetX offsetY) dst

/-! ## First claim: the generator's draw -/

/-- C1: one call to `next()` on a state with all components in `[1, 30000]`
replaces the state by `s1 ← 171·s1 mod 30269`, `s2 ← 172·s2 mod 30307`,
`s3 ← 170·s3 mod 30323`, and returns the sum of the three fractions of the
updated state reduced mod 1.0, a value in `[0, 1)`. -/
theorem whNext_updates_state_and_returns_unit_fraction (g : WHState)
    (h1l : 1 ≤ g.s1) (h1u : g.s1 ≤ 30000)
    (h2l : 1 ≤ g.s2) (h2u : g.s2 ≤ 30000)
    (h3l : 1 ≤ g.s3) (h3u : g.s3 ≤ 30000) :
    (whNext g).2.s1 = (171 * g.s1) % 30269 ∧
    (whNext g).2.s2 = (172 * g.s2) % 30307 ∧
    (whNext g).2.s3 = (170 * g.s3) % 30323 ∧
    (whNext g).1 =
      jsFmod (((whNext g).2.s1 : ℚ) / 30269 + ((whNext g).2.s2 : ℚ) / 30307 +
        ((whNext g).2.s3 : ℚ) / 30323) 1 ∧
    0 ≤ (whNext g).1 ∧ (whNext g).1 < 1 := by
  have hm1 : Int.tmod (171 * g.s1) 30269 = (171 * g.s1) % 30269 :=
    Int.tmod_eq_emod (by positivity) (by norm_num)
  have hm2 : Int.tmod (172 * g.s2) 30307 = (172 * g.s2) % 30307 :=
    Int.tmod_eq_emod (by positivity) (by norm_num)
  have hm3 : Int.tmod (170 * g.s3) 30323 = (170 * g.s3) % 30323 :=
    Int.tmod_eq_emod (by positivity) (by norm_num)
  refine ⟨hm1, hm2, hm3, rfl, ?_, ?_⟩ <;>
  · have e1 : (0 : ℤ) ≤ Int.tmod (171 * g.s1) 30269 :=
      Int.tmod_nonneg _ (by positivity)
    have e2 : (0 : ℤ) ≤ Int.tmod (172 * g.s2) 30307 :=
      Int.tmod_nonneg _ (by positivity)
    have e3 : (0 : ℤ) ≤ Int.tmod (170 * g.s3) 30323 :=
      Int.tmod_nonneg _ (by positivity)
    set a : ℚ := ((Int.tmod (171 * g.s1) 30269 : ℚ) / 30269 +
      (Int.tmod (172 * g.s2) 30307 : ℚ) / 30307 +
      (Int.tmod (170 * g.s3) 30323 : ℚ) / 30323) with ha
    have hA : 0 ≤ a := by
      have : (0 : ℚ) ≤ (Int.tmod (171 * g.s1) 30269 : ℚ) := by exact_mod_cast e1
      have : (0 : ℚ) ≤ (Int.tmod (172 * g.s2) 30307 : ℚ) := by exact_mod_cast e2
      have : (0 : ℚ) ≤ (Int.tmod (170 * g.s3) 30323 : ℚ) := by exact_mod_cast e3
      positivity
    have hva : (whNext g).1 = a - (⌊a⌋ : ℚ) := by
      show jsFmod a 1 = a - (⌊a⌋ : ℚ)
      simp [jsFmod, ratTrunc, div_one, hA]
    rw [hva]
    first
    | exact sub_nonneg.mpr (Int.floor_le a)
    | exact sub_lt_iff_lt_add.mpr (by simpa [add_comm] using Int.lt_floor_add_one a)

/-- Witness for C1 at the seed state (100, 100, 100). -/
theorem whNext_updates_state_and_returns_unit_fraction_witness :
    (whNext ⟨100, 100, 100⟩).2.s1 = (171 * 100) % 30269 ∧
    (whNext ⟨100, 100, 100⟩).2.s2 = (172 * 100) % 30307 ∧
    (whNext ⟨100, 100, 100⟩).2.s3 = (170 * 100) % 30323 ∧
    (whNext ⟨100, 100, 100⟩).1 =
      jsFmod (((whNext ⟨100, 100, 100⟩).2.s1 : ℚ) / 30269 +
        ((whNext ⟨100, 100, 100⟩).2.s2 : ℚ) / 30307 +
        ((whNext ⟨100, 100, 100⟩).2.s3 : ℚ) / 30323) 1 ∧
    0 ≤ (whNext ⟨100, 100, 100⟩).1 ∧ (whNext ⟨100, 100, 100⟩).1 < 1 :=
  whNext_updates_state_and_returns_unit_fraction ⟨100, 100, 100⟩
    (by norm_num) (by norm_num) (by norm_num) (by norm_num) (by norm_num)
    (by norm_num)

/-! ## Kernel builder and per-frame step (over `ℝ`) -/

/-- The corner distance `Math.sqrt(8 ** 2 + 8 ** 2)` (the `cap` constant of
the blob builder). -/
noncomputable def cap : ℝ := Real.sqrt (8 ^ 2 + 8 ^ 2)

/-- The cell function of the `blob` construction (the inner `mapMatrix`
callback, named for the embedding): `v` is the ignored current cell value,
and the result is `(1 - Math.sqrt(xOff ** 2 + yOff ** 2) / cap * 1.1) ** 2`
with `xOff = x - 8`, `yOff = y - 8`. -/
noncomputable def blobFn (v : ℝ) (x y : ℕ) : ℝ :=
  (1 - Real.sqrt (((x : ℝ) - 8) ^ 2 + ((y : ℝ) - 8) ^ 2) / cap * 1.1) ^ 2

/-- The inner grid of the `blob` construction: a 17×17 grid filled via
`blobFn`. -/
noncomputable def blobPre : Mat ℝ := mapMatrix (makeMatrix 17 17 0) blobFn

/-- The outer `mapMatrix` callback of the `blob` construction:
`x => x * 0.1` (named for the embedding). -/
noncomputable def blobScale (v : ℝ) (x y : ℕ) : ℝ := v * 0.1

/-- `blob`: the inner grid normalized, then every cell scaled by `0.1`. -/
noncomputable def blob : Mat ℝ := mapMatrix (normalizeMatrix blobPre) blobScale

/-- `nextBlob(random)` with `random = _ => rng.next()`: draw `x` and `y`
(`(random() * matrix.width) | 0` truncates toward zero) and additively blit
the blob at `(x - 16, y - 8)`.  Returns the new matrix and generator
state. -/
noncomputable def nextBlob (m : Mat ℝ) (g : WHState) : Mat ℝ × WHState :=
  let r1 := whNext g
  let r2 := whNext r1.2
  let x : ℤ := ratTrunc (r1.1 * (m.width : ℚ))
  let y : ℤ := ratTrunc (r2.1 * (m.height : ℚ))
  (addMatrix blob m (x - 16) (y - 8), r2.2)

/-- The `for (let i = 0; i < velocity; i++) nextBlob(_ => rng.next())`
loop of `animate`. -/
noncomputable def stampLoop : ℕ → Mat ℝ × WHState → Mat ℝ × WHState
  | 0, s => s
  | n + 1, s => stampLoop n (nextBlob s.1 s.2)

/-- One frame of `animate` (UI reads and canvas drawing stripped): compute
`attenuation = 1 - (1 - input) ** 8`, stamp `velocity` blobs, produce the
drawn grid `mapMatrix(normalizeMatrix(matrix), v => v ** contrast)`
(`**` with a float exponent is `Real.rpow`), and decay the persistent
matrix by `attenuation`.  Returns (output grid, persistent grid, generator
state). -/
noncomputable def animate (m : Mat ℝ) (g : WHState) (velocity : ℕ)
    (contrast attenuationInput : ℝ) : Mat ℝ × Mat ℝ × WHState :=
  let attenuation : ℝ := 1 - (1 - attenuationInput) ^ 8
  let s := stampLoop velocity (m, g)
  (mapMatrix (normalizeMatrix s.1) fun v _ _ => Real.rpow v contrast,
   mapMatrix s.1 fun v _ _ => v * attenuation, s.2)

/-! ## Structural lemmas -/

@[simp] theorem setFlat_width (m : Mat α) (i : ℤ) (v : α) :
    (setFlat m i v).width = m.width := rfl

@[simp] theorem setFlat_height (m : Mat α) (i : ℤ) (v : α) :
    (setFlat m i v).height = m.height := rfl

theorem setFlat_cells (m : Mat α) (i : ℤ) (v : α) (j : ℤ) :
    (setFlat m i v).cells j = if j = i then v else m.cells j := rfl

theorem setFlat_length_of_lt (m : Mat α) (i : ℤ) (v : α)
    (h : i < (m.length : ℤ)) : (setFlat m i v).length = m.length := by
  simp only [setFlat]
  rw [if_neg]
  rintro ⟨-, h'⟩
  exact absurd h (not_lt.mpr h')

@[simp] theorem setXY_width (m : Mat α) (x y : ℤ) (v : α) :
    (setXY m x y v).width = m.width := rfl

@[simp] theorem setXY_height (m : Mat α) (x y : ℤ) (v : α) :
    (setXY m x y v).height = m.height := rfl

theorem mapStep_width (m : Mat α) (fn : α → ℕ → ℕ → α) (acc : Mat α)
    (p : ℕ × ℕ) : (mapStep m fn acc p).width = acc.width := rfl

theorem mapStep_height (m : Mat α) (fn : α → ℕ → ℕ → α) (acc : Mat α)
    (p : ℕ × ℕ) : (mapStep m fn acc p).height = acc.height := rfl

theorem addStep_width [Add α] (src : Mat α) (ox oy : ℤ) (acc : Mat α)
    (p : ℕ × ℕ) : (addStep src ox oy acc p).width = acc.width := by
  unfold addStep; split <;> [rfl; skip]; split <;> rfl

theorem addStep_height [Add α] (src : Mat α) (ox oy : ℤ) (acc : Mat α)
    (p : ℕ × ℕ) : (addStep src ox oy acc p).height = acc.height := by
  unfold addStep; split <;> [rfl; skip]; split <;> rfl

theorem foldl_width {f : Mat α → ℕ × ℕ → Mat α}
    (hf : ∀ a p, (f a p).width = a.width) :
    ∀ (l : List (ℕ × ℕ)) (acc : Mat α), (l.foldl f acc).width = acc.width := by
  intro l
  induction l with
  | nil => intro acc; rfl
  | cons p l ih => intro acc; rw [List.foldl_cons, ih, hf]

theorem foldl_height {f : Mat α → ℕ × ℕ → Mat α}
    (hf : ∀ a p, (f a p).height = a.height) :
    ∀ (l : List (ℕ × ℕ)) (acc : Mat α), (l.foldl f acc).height = acc.height := by
  intro l
  induction l with
  | nil => intro acc; rfl
  | cons p l ih => intro acc; rw [List.foldl_cons, ih, hf]

@[simp] theorem mapMatrix_width (m : Mat α) (fn : α → ℕ → ℕ → α) :
    (mapMatrix m fn).width = m.width :=
  foldl_width (mapStep_width m fn) _ _

@[simp] theorem mapMatrix_height (m : Mat α) (fn : α → ℕ → ℕ → α) :
    (mapMatrix m fn).height = m.height :=
  foldl_height (mapStep_height m fn) _ _

@[simp] theorem addMatrix_width [Add α] (src dst : Mat α) (ox oy : ℤ) :
    (addMatrix src dst ox oy).width = dst.width :=
  foldl_width (addStep_width src ox oy) _ _

@[simp] theorem addMatrix_height [Add α] (src dst : Mat α) (ox oy : ℤ) :
    (addMatrix src dst ox oy).height = dst.height :=
  foldl_height (addStep_height src ox oy) _ _

@[simp] theorem normalizeMatrix_width [LinearOrder α] [Div α] (m : Mat α) :
    (normalizeMatrix m).width = m.width := mapMatrix_width _ _

@[simp] theorem normalizeMatrix_height [LinearOrder α] [Div α] (m : Mat α) :
    (normalizeMatrix m).height = m.height := mapMatrix_height _ _

theorem pairList_mem {w h : ℕ} {p : ℕ × ℕ} :
    p ∈ pairList w h ↔ p.1 < w ∧ p.2 < h := by
  obtain ⟨x, y⟩ := p
  simp only [pairList, List.mem_bind, List.mem_map, List.mem_range,
    Prod.mk.injEq]
  constructor
  · rintro ⟨a, ha, b, hb, rfl, rfl⟩
    exact ⟨ha, hb⟩
  · rintro ⟨hx, hy⟩
    exact ⟨x, hx, y, hy, rfl, rfl⟩

theorem pairList_nodup (w h : ℕ) : (pairList w h).Nodup := by
  rw [pairList, List.nodup_bind]
  constructor
  · intro x hx
    exact (List.nodup_range h).map fun a b hab => by
      simpa using congrArg Prod.snd hab
  · refine (List.nodup_range w).imp ?_
    intro x y hxy
    simp only [List.Disjoint]
    rintro ⟨a, b⟩ ha hb
    rw [List.mem_map] at ha hb
    obtain ⟨_, -, h1⟩ := ha
    obtain ⟨_, -, h2⟩ := hb
    apply hxy
    have e1 : x = a := congrArg Prod.fst h1
    have e2 : y = a := congrArg Prod.fst h2
    rw [e1, e2]

theorem foldl_mapStep_untouched (m : Mat α) (fn : α → ℕ → ℕ → α) (H : ℕ)
    (j : ℤ) :
    ∀ (l : List (ℕ × ℕ)) (acc : Mat α), acc.height = H →
      (∀ p ∈ l, (p.2 : ℤ) * (H : ℤ) + (p.1 : ℤ) ≠ j) →
      (l.foldl (mapStep m fn) acc).cells j = acc.cells j := by
  intro l
  induction l with
  | nil => intro acc _ _; rfl
  | cons p l ih =>
    intro acc hH hall
    rw [List.foldl_cons,
      ih _ (by rw [mapStep_height]; exact hH)
        (fun q hq => hall q (List.mem_cons_of_mem _ hq))]
    show (setXY acc _ _ _).cells j = acc.cells j
    rw [setXY, setFlat_cells, if_neg]
    rw [cellIndex, hH]
    exact fun hj => hall p (List.mem_cons_self _ _) (hj ▸ rfl)

theorem foldl_mapStep_cells_unique (m : Mat α) (fn : α → ℕ → ℕ → α) (H : ℕ)
    (x y : ℕ) :
    ∀ (l : List (ℕ × ℕ)) (acc : Mat α), acc.height = H →
      (x, y) ∈ l → l.Nodup →
      (∀ p ∈ l, (p.2 : ℤ) * (H : ℤ) + (p.1 : ℤ) = (y : ℤ) * (H : ℤ) + (x : ℤ) →
        p = (x, y)) →
      (l.foldl (mapStep m fn) acc).cells ((y : ℤ) * (H : ℤ) + (x : ℤ)) =
        fn (getXY m (x : ℤ) (y : ℤ)) x y := by
  intro l
  induction l with
  | nil => intro acc _ hmem; exact absurd hmem (List.not_mem_nil _)
  | cons p l ih =>
    intro acc hH hmem hnodup hinj
    rcases List.mem_cons.mp hmem with hp | hp
    · rw [List.foldl_cons,
        foldl_mapStep_untouched m fn H _ l _
          (by rw [mapStep_height]; exact hH) ?_]
      · subst hp
        show (setXY acc _ _ _).cells _ = _
        rw [setXY, setFlat_cells, if_pos]
        rw [cellIndex, hH]
      · intro q hq heq
        have hql : q = p := (hinj q (List.mem_cons_of_mem _ hq) heq).trans hp
        exact (List.nodup_cons.mp hnodup).1 (hql ▸ hq)
    · rw [List.foldl_cons]
      exact ih _ (by rw [mapStep_height]; exact hH) hp
        (List.nodup_cons.mp hnodup).2
        fun q hq => hinj q (List.mem_cons_of_mem _ hq)

/-- Injectivity of the flat index on coordinates whose `x` parts are below
the indexing stride. -/
theorem index_inj {h x1 y1 x2 y2 : ℕ} (hx1 : x1 < h) (hx2 : x2 < h)
    (he : y1 * h + x1 = y2 * h + x2) : x1 = x2 ∧ y1 = y2 := by
  have e1 : (x1 + y1 * h) % h = x1 % h := Nat.add_mul_mod_self_right x1 y1 h
  have e2 : (x2 + y2 * h) % h = x2 % h := Nat.add_mul_mod_self_right x2 y2 h
  have he' : x1 + y1 * h = x2 + y2 * h := by omega
  have hx : x1 = x2 := by
    rw [Nat.mod_eq_of_lt hx1] at e1
    rw [Nat.mod_eq_of_lt hx2] at e2
    rw [← e1, ← e2, he']
  refine ⟨hx, ?_⟩
  have hy : y1 * h = y2 * h := by omega
  exact Nat.eq_of_mul_eq_mul_right (lt_of_le_of_lt (Nat.zero_le _) hx1) hy

/-- In-range cell values after `mapMatrix`, valid whenever
`width ≤ height` (so every in-range coordinate pair owns its flat index).
This covers the square matrices the program builds. -/
theorem mapMatrix_cells_of_le (m : Mat α) (fn : α → ℕ → ℕ → α)
    (hwh : m.width ≤ m.height) (x y : ℕ) (hx : x < m.width)
    (hy : y < m.height) :
    (mapMatrix m fn).cells ((y : ℤ) * (m.height : ℤ) + (x : ℤ)) =
      fn (getXY m (x : ℤ) (y : ℤ)) x y := by
  apply foldl_mapStep_cells_unique m fn m.height x y (pairList m.width m.height)
    (copyMatrix m) rfl (pairList_mem.mpr ⟨hx, hy⟩) (pairList_nodup _ _)
  rintro ⟨a, b⟩ hmem heq
  obtain ⟨ha, hb⟩ := pairList_mem.mp hmem
  have heq' : b * m.height + a = y * m.height + x := by exact_mod_cast heq
  obtain ⟨h1, h2⟩ := index_inj (lt_of_lt_of_le ha hwh)
    (lt_of_lt_of_le hx hwh) heq'
  simp only [Prod.mk.injEq]
  exact ⟨h1, h2⟩

theorem foldl_mapStep_length (m : Mat α) (fn : α → ℕ → ℕ → α) (H L : ℕ) :
    ∀ (l : List (ℕ × ℕ)) (acc : Mat α), acc.height = H → acc.length = L →
      (∀ p ∈ l, p.2 * H + p.1 < L) →
      (l.foldl (mapStep m fn) acc).length = L := by
  intro l
  induction l with
  | nil => intro acc _ hL _; exact hL
  | cons p l ih =>
    intro acc hH hL hall
    rw [List.foldl_cons]
    refine ih _ (by rw [mapStep_height]; exact hH) ?_
      fun q hq => hall q (List.mem_cons_of_mem _ hq)
    show (setXY acc _ _ _).length = L
    rw [setXY, setFlat_length_of_lt, hL]
    rw [cellIndex, hH, hL]
    exact_mod_cast hall p (List.mem_cons_self _ _)

/-- The per-write index bound that holds when `height ≤ width`. -/
theorem index_lt_of_height_le {w h x y : ℕ} (hx : x < w) (hy : y < h)
    (hwh : h ≤ w) : y * h + x < w * h := by
  have h1 : 1 ≤ h := Nat.one_le_iff_ne_zero.mpr fun h0 => by omega
  calc y * h + x < y * h + w := by omega
    _ ≤ (h - 1) * w + w := by
        have : y * h ≤ (h - 1) * w :=
          le_trans (Nat.mul_le_mul_right h (by omega))
            (Nat.mul_le_mul_left (h - 1) hwh)
        omega
    _ = ((h - 1) + 1) * w := by ring
    _ = h * w := by rw [Nat.sub_add_cancel h1]
    _ = w * h := Nat.mul_comm h w

/-- `mapMatrix` preserves the array length whenever `height ≤ width`; in
particular for the square matrices the program builds. -/
theorem mapMatrix_length_of_height_le (m : Mat α) (fn : α → ℕ → ℕ → α)
    (hwf : m.length = m.width * m.height) (hwh : m.height ≤ m.width) :
    (mapMatrix m fn).length = m.length := by
  apply foldl_mapStep_length m fn m.height m.length _ (copyMatrix m) rfl rfl
  rintro ⟨a, b⟩ hmem
  obtain ⟨ha, hb⟩ := pairList_mem.mp hmem
  rw [hwf]
  exact index_lt_of_height_le ha hb hwh

/-! ## `maxValueOf` lemmas -/

theorem foldl_jsMax_le [LinearOrder α] {c : α} :
    ∀ (l : List α) (s : α), s ≤ c → (∀ x ∈ l, x ≤ c) → l.foldl jsMax s ≤ c := by
  intro l
  induction l with
  | nil => intro s hs _; exact hs
  | cons a l ih =>
    intro s hs hall
    rw [List.foldl_cons]
    refine ih _ ?_ fun x hx => hall x (List.mem_cons_of_mem _ hx)
    rw [jsMax]
    split
    · exact hs
    · exact hall a (List.mem_cons_self _ _)

theorem le_foldl_jsMax_seed [LinearOrder α] :
    ∀ (l : List α) (s : α), s ≤ l.foldl jsMax s := by
  intro l
  induction l with
  | nil => intro s; exact le_rfl
  | cons a l ih =>
    intro s
    rw [List.foldl_cons]
    refine le_trans ?_ (ih (jsMax s a))
    rw [jsMax]
    split
    · exact le_rfl
    · exact le_of_not_lt (by assumption)

theorem le_foldl_jsMax_mem [LinearOrder α] :
    ∀ (l : List α) (s x : α), x ∈ l → x ≤ l.foldl jsMax s := by
  intro l
  induction l with
  | nil => intro s x hx; exact absurd hx (List.not_mem_nil _)
  | cons a l ih =>
    intro s x hx
    rw [List.foldl_cons]
    rcases List.mem_cons.mp hx with rfl | hx
    · refine le_trans ?_ (le_foldl_jsMax_seed l (jsMax s x))
      rw [jsMax]
      split
      · exact le_of_lt (by assumption)
      · exact le_rfl
    · exact ih _ x hx

theorem foldl_jsMax_mem [LinearOrder α] :
    ∀ (l : List α) (s : α), l.foldl jsMax s = s ∨ l.foldl jsMax s ∈ l := by
  intro l
  induction l with
  | nil => intro s; exact Or.inl rfl
  | cons a l ih =>
    intro s
    rw [List.foldl_cons]
    rcases ih (jsMax s a) with h | h
    · rw [h, jsMax]
      split
      · exact Or.inl rfl
      · exact Or.inr (List.mem_cons_self _ _)
    · exact Or.inr (List.mem_cons_of_mem _ h)

theorem mem_range_drop_one {n i : ℕ} :
    i ∈ (List.range n).drop 1 ↔ 1 ≤ i ∧ i < n := by
  cases n with
  | zero => simp
  | succ k =>
    rw [List.range_succ_eq_map]
    simp only [List.drop_succ_cons, List.drop_zero, List.mem_map,
      List.mem_range]
    constructor
    · rintro ⟨j, hj, rfl⟩
      omega
    · rintro ⟨h1, h2⟩
      exact ⟨i - 1, by omega, by omega⟩

theorem le_maxValueOf [LinearOrder α] (m : Mat α) (i : ℕ) (hi : i < m.length) :
    m.cells (i : ℤ) ≤ maxValueOf m := by
  rw [maxValueOf]
  rcases Nat.eq_zero_or_pos i with rfl | hpos
  · exact le_foldl_jsMax_seed _ _
  · exact le_foldl_jsMax_mem _ _ _
      (List.mem_map_of_mem _ (mem_range_drop_one.mpr ⟨hpos, hi⟩))

theorem maxValueOf_le [LinearOrder α] (m : Mat α) (c : α) (hlen : 0 < m.length)
    (hle : ∀ i : ℕ, i < m.length → m.cells (i : ℤ) ≤ c) : maxValueOf m ≤ c := by
  rw [maxValueOf]
  refine foldl_jsMax_le _ _ (hle 0 hlen) ?_
  intro v hv
  rw [List.mem_map] at hv
  obtain ⟨i, hi, rfl⟩ := hv
  exact hle i (mem_range_drop_one.mp hi).2

theorem maxValueOf_attained [LinearOrder α] (m : Mat α) (hlen : 0 < m.length) :
    ∃ i : ℕ, i < m.length ∧ maxValueOf m = m.cells (i : ℤ) := by
  rcases foldl_jsMax_mem (((List.range m.length).drop 1).map
      (fun i : ℕ => m.cells (i : ℤ))) (m.cells 0) with h | h
  · exact ⟨0, hlen, h⟩
  · rw [List.mem_map] at h
    obtain ⟨i, hi, he⟩ := h
    exact ⟨i, (mem_range_drop_one.mp hi).2, he.symm⟩

theorem maxValueOf_eq [LinearOrder α] (m : Mat α) (c : α) (hlen : 0 < m.length)
    (hle : ∀ i : ℕ, i < m.length → m.cells (i : ℤ) ≤ c)
    (hex : ∃ i : ℕ, i < m.length ∧ m.cells (i : ℤ) = c) : maxValueOf m = c := by
  obtain ⟨i, hi, he⟩ := hex
  exact le_antisymm (maxValueOf_le m c hlen hle) (he ▸ le_maxValueOf m i hi)

/-! ## `addMatrix` characterization -/

/-- The contribution of one source iteration `(x, y)` to destination flat
index `i`: the source value when the two upper-bound guards pass and the
write lands on `i`, else nothing. -/
def stampTerm (src : Mat ℚ) (W H : ℕ) (ox oy : ℤ) (i : ℤ) (p : ℕ × ℕ) : ℚ :=
  if (p.1 : ℤ) + ox < (W : ℤ) ∧ (p.2 : ℤ) + oy < (H : ℤ) ∧
      ((p.2 : ℤ) + oy) * (H : ℤ) + ((p.1 : ℤ) + ox) = i then
    getXY src (p.1 : ℤ) (p.2 : ℤ)
  else 0

/-- Total accumulated contribution of an `addMatrix` stamp to flat index
`i` of a destination with dimensions `W × H`. -/
def stampSum (src : Mat ℚ) (W H : ℕ) (ox oy : ℤ) (i : ℤ) : ℚ :=
  ((pairList src.width src.height).map (stampTerm src W H ox oy i)).sum

theorem addStep_cells (src : Mat ℚ) (ox oy : ℤ) (acc : Mat ℚ) (p : ℕ × ℕ)
    (i : ℤ) :
    (addStep src ox oy acc p).cells i =
      acc.cells i + stampTerm src acc.width acc.height ox oy i p := by
  by_cases h1 : (acc.width : ℤ) ≤ (p.1 : ℤ) + ox
  · rw [addStep, if_pos h1, stampTerm, if_neg, add_zero]
    rintro ⟨c1, -, -⟩
    exact absurd h1 (not_le.mpr c1)
  · by_cases h2 : (acc.height : ℤ) ≤ (p.2 : ℤ) + oy
    · rw [addStep, if_neg h1, if_pos h2, stampTerm, if_neg, add_zero]
      rintro ⟨-, c2, -⟩
      exact absurd h2 (not_le.mpr c2)
    · rw [addStep, if_neg h1, if_neg h2]
      by_cases h3 : ((p.2 : ℤ) + oy) * (acc.height : ℤ) + ((p.1 : ℤ) + ox) = i
      · rw [stampTerm, if_pos ⟨not_le.mp h1, not_le.mp h2, h3⟩]
        show (setFlat _ _ _).cells i = _
        rw [setFlat_cells, if_pos (by rw [cellIndex]; omega)]
        rw [getXY, cellIndex, h3]
      · rw [stampTerm, if_neg (by rintro ⟨-, -, c3⟩; exact h3 c3), add_zero]
        show (setFlat _ _ _).cells i = _
        rw [setFlat_cells, if_neg (by rw [cellIndex]; omega)]

theorem foldl_addStep_cells (src : Mat ℚ) (ox oy : ℤ) (W H : ℕ) (i : ℤ) :
    ∀ (l : List (ℕ × ℕ)) (acc : Mat ℚ), acc.width = W → acc.height = H →
      (l.foldl (addStep src ox oy) acc).cells i =
        acc.cells i + (l.map (stampTerm src W H ox oy i)).sum := by
  intro l
  induction l with
  | nil => intro acc _ _; simp
  | cons p l ih =>
    intro acc hW hH
    rw [List.foldl_cons, List.map_cons, List.sum_cons,
      ih _ (by rw [addStep_width]; exact hW) (by rw [addStep_height]; exact hH),
      addStep_cells, hW, hH, add_assoc]

/-- Every cell of `addMatrix src dst ox oy` is the original destination cell
plus the sum of the guarded source contributions landing on it. -/
theorem addMatrix_cells (src dst : Mat ℚ) (ox oy : ℤ) (i : ℤ) :
    (addMatrix src dst ox oy).cells i =
      dst.cells i + stampSum src dst.width dst.height ox oy i :=
  foldl_addStep_cells src ox oy dst.width dst.height i _ dst rfl rfl

theorem foldl_addStep_length (src : Mat ℚ) (ox oy : ℤ) (W H L : ℕ) :
    ∀ (l : List (ℕ × ℕ)) (acc : Mat ℚ), acc.width = W → acc.height = H →
      acc.length = L →
      (∀ p ∈ l, (p.1 : ℤ) + ox < (W : ℤ) → (p.2 : ℤ) + oy < (H : ℤ) →
        ((p.2 : ℤ) + oy) * (H : ℤ) + ((p.1 : ℤ) + ox) < (L : ℤ)) →
      (l.foldl (addStep src ox oy) acc).length = L := by
  intro l
  induction l with
  | nil => intro acc _ _ hL _; exact hL
  | cons p l ih =>
    intro acc hW hH hL hall
    rw [List.foldl_cons]
    refine ih _ (by rw [addStep_width]; exact hW)
      (by rw [addStep_height]; exact hH) ?_
      fun q hq => hall q (List.mem_cons_of_mem _ hq)
    by_cases h1 : (acc.width : ℤ) ≤ (p.1 : ℤ) + ox
    · rw [addStep, if_pos h1]; exact hL
    · by_cases h2 : (acc.height : ℤ) ≤ (p.2 : ℤ) + oy
      · rw [addStep, if_neg h1, if_pos h2]; exact hL
      · rw [addStep, if_neg h1, if_neg h2]
        show (setFlat _ _ _).length = L
        rw [setFlat_length_of_lt, hL]
        have c1 : (p.1 : ℤ) + ox < (W : ℤ) := by rw [← hW]; exact not_le.mp h1
        have c2 : (p.2 : ℤ) + oy < (H : ℤ) := by rw [← hH]; exact not_le.mp h2
        rw [cellIndex, hH, hL]
        exact hall p (List.mem_cons_self _ _) c1 c2

/-- Bounds of the flat index of an in-guard write under nonnegative offsets
and `height ≤ width`. -/
theorem index_bounds_int {W H : ℕ} {a b : ℤ} (ha0 : 0 ≤ a) (haW : a < (W : ℤ))
    (hb0 : 0 ≤ b) (hbH : b < (H : ℤ)) (hWH : H ≤ W) :
    0 ≤ b * (H : ℤ) + a ∧ b * (H : ℤ) + a < (W : ℤ) * (H : ℤ) := by
  have hH1 : (1 : ℤ) ≤ (H : ℤ) := by omega
  have hWH' : (H : ℤ) ≤ (W : ℤ) := by exact_mod_cast hWH
  constructor
  · have := mul_nonneg hb0 (by omega : (0 : ℤ) ≤ (H : ℤ))
    omega
  · have e1 : b * (H : ℤ) ≤ ((H : ℤ) - 1) * (H : ℤ) :=
      mul_le_mul_of_nonneg_right (by omega) (by omega)
    have e2 : ((H : ℤ) - 1) * (H : ℤ) ≤ ((H : ℤ) - 1) * (W : ℤ) :=
      mul_le_mul_of_nonneg_left hWH' (by omega)
    have e3 : ((H : ℤ) - 1) * (W : ℤ) + (W : ℤ) = (H : ℤ) * (W : ℤ) := by ring
    have e4 : (H : ℤ) * (W : ℤ) = (W : ℤ) * (H : ℤ) := mul_comm _ _
    omega

theorem stampSum_eq_zero_outside (src : Mat ℚ) (W H : ℕ) (ox oy : ℤ) (i : ℤ)
    (hox : 0 ≤ ox) (hoy : 0 ≤ oy) (hWH : H ≤ W)
    (hi : i < 0 ∨ ((W : ℤ) * (H : ℤ)) ≤ i) :
    stampSum src W H ox oy i = 0 := by
  refine List.sum_eq_zero ?_
  intro t ht
  rw [List.mem_map] at ht
  obtain ⟨p, -, rfl⟩ := ht
  rw [stampTerm]
  split
  · next hc =>
    obtain ⟨c1, c2, c3⟩ := hc
    obtain ⟨hlo, hhi⟩ := index_bounds_int
      (by positivity : (0 : ℤ) ≤ (p.1 : ℤ) + ox) c1
      (by positivity : (0 : ℤ) ≤ (p.2 : ℤ) + oy) c2 hWH
    omega
  · rfl

/-! ## C3: addBlit guarded accumulation and bounds -/

/-- C3 (amended): `addBlit` increments the destination cell at
`(x+offsetX, y+offsetY)` by the source cell at `(x, y)` exactly when
`x+offsetX < dest.width` and `y+offsetY < dest.height`, skipping silently
otherwise and performing no lower-bound check; when both offsets are
nonnegative **and the destination's height does not exceed its width**
(in particular for square destinations), no write occurs outside the
destination's cell sequence and every cell holds its correct accumulated
value.  (For destinations with `height > width` an in-guard write can land
past the end of the cell sequence — see the counterexample.) -/
theorem addMatrix_accumulates_and_respects_bounds (src dst : Mat ℚ)
    (ox oy : ℤ) (hox : 0 ≤ ox) (hoy : 0 ≤ oy)
    (hwf : dst.length = dst.width * dst.height)
    (hwh : dst.height ≤ dst.width) :
    (addMatrix src dst ox oy).length = dst.length ∧
    (∀ i : ℤ, i < 0 ∨ (dst.length : ℤ) ≤ i →
      (addMatrix src dst ox oy).cells i = dst.cells i) ∧
    (∀ i : ℤ, (addMatrix src dst ox oy).cells i =
      dst.cells i + stampSum src dst.width dst.height ox oy i) := by
  refine ⟨?_, ?_, fun i => addMatrix_cells src dst ox oy i⟩
  · apply foldl_addStep_length src ox oy dst.width dst.height dst.length _ dst
      rfl rfl rfl
    intro p _ c1 c2
    have hb := (index_bounds_int (by positivity) c1 (by positivity) c2 hwh).2
    rw [hwf]
    push_cast
    omega
  · intro i hi
    rw [addMatrix_cells,
      stampSum_eq_zero_outside src _ _ ox oy i hox hoy hwh ?_, add_zero]
    rcases hi with h | h
    · exact Or.inl h
    · right
      rw [hwf] at h
      push_cast at h
      exact h

/-- Counterexample to C3 as stated: with nonnegative offsets `(0, 1)`,
blitting a 1×1 source onto a 1×2 destination writes flat index
`1*height + 0 = 2`, outside the destination's cell sequence `[0, 2)`
(and the JS array length grows from 2 to 3). -/
theorem addMatrix_writes_outside_counterexample :
    (addMatrix (makeMatrix 1 1 (5 : ℚ)) (makeMatrix 1 2 (0 : ℚ)) 0 1).cells 2 ≠
      (makeMatrix 1 2 (0 : ℚ)).cells 2 ∧
    (makeMatrix 1 2 (0 : ℚ)).length = 2 ∧
    (addMatrix (makeMatrix 1 1 (5 : ℚ)) (makeMatrix 1 2 (0 : ℚ)) 0 1).length = 3 := by
  refine ⟨?_, rfl, rfl⟩
  rw [addMatrix_cells]
  have hs : stampSum (makeMatrix 1 1 (5 : ℚ)) (makeMatrix 1 2 (0 : ℚ)).width
      (makeMatrix 1 2 (0 : ℚ)).height 0 1 2 = 5 := by
    show ((pairList 1 1).map _).sum = 5
    rw [show pairList 1 1 = [(0, 0)] from rfl]
    norm_num [stampTerm, getXY, makeMatrix, cellIndex]
  rw [hs]
  norm_num [makeMatrix]

/-- Witness for C3 (amended) on a square destination. -/
theorem addMatrix_accumulates_and_respects_bounds_witness :
    (addMatrix (makeMatrix 1 1 (5 : ℚ)) (makeMatrix 2 2 (0 : ℚ)) 0 0).length =
      (makeMatrix 2 2 (0 : ℚ)).length ∧
    (addMatrix (makeMatrix 1 1 (5 : ℚ)) (makeMatrix 2 2 (0 : ℚ)) 0 0).cells 4 =
      (makeMatrix 2 2 (0 : ℚ)).cells 4 ∧
    (addMatrix (makeMatrix 1 1 (5 : ℚ)) (makeMatrix 2 2 (0 : ℚ)) 0 0).cells 0 =
      (makeMatrix 2 2 (0 : ℚ)).cells 0 +
        stampSum (makeMatrix 1 1 (5 : ℚ)) 2 2 0 0 0 := by
  obtain ⟨h1, h2, h3⟩ := addMatrix_accumulates_and_respects_bounds
    (makeMatrix 1 1 (5 : ℚ)) (makeMatrix 2 2 (0 : ℚ)) 0 0
    le_rfl le_rfl rfl le_rfl
  exact ⟨h1, h2 4 (Or.inr (by norm_num [makeMatrix])), h3 0⟩

/-! ## C9: commutativity of disjoint stamps -/

/-- Two stamps (source kernels with offsets) write to disjoint sets of
destination flat indices. -/
def DisjointStamps (A B dst : Mat ℚ) (ox1 oy1 ox2 oy2 : ℤ) : Prop :=
  ∀ x1 : ℕ, x1 < A.width → ∀ y1 : ℕ, y1 < A.height →
  ∀ x2 : ℕ, x2 < B.width → ∀ y2 : ℕ, y2 < B.height →
    (x1 : ℤ) + ox1 < (dst.width : ℤ) → (y1 : ℤ) + oy1 < (dst.height : ℤ) →
    (x2 : ℤ) + ox2 < (dst.width : ℤ) → (y2 : ℤ) + oy2 < (dst.height : ℤ) →
    ((y1 : ℤ) + oy1) * (dst.height : ℤ) + ((x1 : ℤ) + ox1) ≠
      ((y2 : ℤ) + oy2) * (dst.height : ℤ) + ((x2 : ℤ) + ox2)

/-- C9: for stamps whose written destination cells are disjoint, applying
`addBlit` with stamp A then stamp B gives the same destination, cell for
cell, as stamp B then stamp A.  (Exact accumulation makes the order
irrelevant; the disjointness hypothesis of the claim is carried along.) -/
theorem addMatrix_comm_of_disjoint (A B dst : Mat ℚ) (ox1 oy1 ox2 oy2 : ℤ)
    (hdisj : DisjointStamps A B dst ox1 oy1 ox2 oy2) :
    ∀ i : ℤ, (addMatrix B (addMatrix A dst ox1 oy1) ox2 oy2).cells i =
      (addMatrix A (addMatrix B dst ox2 oy2) ox1 oy1).cells i := by
  intro i
  rw [addMatrix_cells, addMatrix_cells, addMatrix_cells, addMatrix_cells]
  simp only [addMatrix_width, addMatrix_height]
  ring

/-- Witness for C9: two 1×1 stamps at offsets (0,0) and (1,1) on a 3×3
destination. -/
theorem addMatrix_comm_of_disjoint_witness :
    DisjointStamps (makeMatrix 1 1 (2 : ℚ)) (makeMatrix 1 1 (3 : ℚ))
      (makeMatrix 3 3 (0 : ℚ)) 0 0 1 1 ∧
    (addMatrix (makeMatrix 1 1 (3 : ℚ))
      (addMatrix (makeMatrix 1 1 (2 : ℚ)) (makeMatrix 3 3 (0 : ℚ)) 0 0)
        1 1).cells 0 =
    (addMatrix (makeMatrix 1 1 (2 : ℚ))
      (addMatrix (makeMatrix 1 1 (3 : ℚ)) (makeMatrix 3 3 (0 : ℚ)) 1 1)
        0 0).cells 0 := by
  have hd : DisjointStamps (makeMatrix 1 1 (2 : ℚ)) (makeMatrix 1 1 (3 : ℚ))
      (makeMatrix 3 3 (0 : ℚ)) 0 0 1 1 := by
    intro x1 hx1 y1 hy1 x2 hx2 y2 hy2 c1 c2 c3 c4
    simp only [makeMatrix] at hx1 hy1 hx2 hy2 ⊢
    omega
  exact ⟨hd, addMatrix_comm_of_disjoint (makeMatrix 1 1 (2 : ℚ))
    (makeMatrix 1 1 (3 : ℚ)) (makeMatrix 3 3 (0 : ℚ)) 0 0 1 1 hd 0⟩

/-! ## C4: the length invariant -/

/-- C4 (amended): `length = width * height` holds at creation and is kept
by copy unconditionally, and by the elementwise map and normalization
provided the grid's height does not exceed its width (in particular for the
square grids the program builds); dimensions are never changed.  (For
`1 ≤ width < height` the map writes past the end of the cell sequence and
the length invariant breaks — see the counterexample.) -/
theorem matrix_ops_preserve_length (w h : ℕ) (v : ℚ) (m : Mat ℚ)
    (fn : ℚ → ℕ → ℕ → ℚ) (hwf : m.length = m.width * m.height)
    (hwh : m.height ≤ m.width) :
    (makeMatrix w h v).length =
      (makeMatrix w h v).width * (makeMatrix w h v).height ∧
    ((copyMatrix m).length = m.length ∧ (copyMatrix m).width = m.width ∧
      (copyMatrix m).height = m.height) ∧
    ((mapMatrix m fn).length =
        (mapMatrix m fn).width * (mapMatrix m fn).height ∧
      (mapMatrix m fn).width = m.width ∧ (mapMatrix m fn).height = m.height) ∧
    ((normalizeMatrix m).length =
        (normalizeMatrix m).width * (normalizeMatrix m).height ∧
      (normalizeMatrix m).width = m.width ∧
      (normalizeMatrix m).height = m.height) := by
  refine ⟨rfl, ⟨rfl, rfl, rfl⟩, ⟨?_, mapMatrix_width m fn, mapMatrix_height m fn⟩,
    ⟨?_, normalizeMatrix_width m, normalizeMatrix_height m⟩⟩
  · rw [mapMatrix_length_of_height_le m fn hwf hwh, hwf, mapMatrix_width,
      mapMatrix_height]
  · show (mapMatrix m _).length = _
    rw [mapMatrix_length_of_height_le m _ hwf hwh, hwf, normalizeMatrix_width,
      normalizeMatrix_height]

/-- Counterexample to C4 as stated: mapping the identity over a 1×2 grid
writes flat index `1*2 + 0 = 2`, growing the array to length 3 ≠ 1·2. -/
theorem mapMatrix_breaks_length_counterexample :
    (mapMatrix (makeMatrix 1 2 (0 : ℚ)) (fun v _ _ => v)).length = 3 ∧
    (makeMatrix 1 2 (0 : ℚ)).width * (makeMatrix 1 2 (0 : ℚ)).height = 2 := by
  constructor
  · decide
  · rfl

/-- Witness for C4 (amended) on a square grid. -/
theorem matrix_ops_preserve_length_witness :
    (mapMatrix (makeMatrix 2 2 (7 : ℚ)) (fun v _ _ => v + 1)).length =
      (mapMatrix (makeMatrix 2 2 (7 : ℚ)) (fun v _ _ => v + 1)).width *
        (mapMatrix (makeMatrix 2 2 (7 : ℚ)) (fun v _ _ => v + 1)).height ∧
    (normalizeMatrix (makeMatrix 2 2 (7 : ℚ))).length =
      (normalizeMatrix (makeMatrix 2 2 (7 : ℚ))).width *
        (normalizeMatrix (makeMatrix 2 2 (7 : ℚ))).height := by
  obtain ⟨-, -, hmap, hnorm⟩ := matrix_ops_preserve_length 3 1 5
    (makeMatrix 2 2 (7 : ℚ)) (fun v _ _ => v + 1) rfl le_rfl
  exact ⟨hmap.1, hnorm.1⟩

/-! ## C10: the flat-index convention on non-square grids -/

/-- C10 (amended): for `width > height ≥ 2` the flat-index convention
`y*height + x` is not injective on in-range coordinates — two distinct
coordinates share an index, so a `setXY` at one is read back by `getXY` at
the other; for `width = height` the convention is a bijection onto
`[0, width*height)`.  (For `height = 1` the map is injective even when
`width > height` — see the counterexample.) -/
theorem cellIndex_collision_dichotomy (w h : ℕ) :
    (2 ≤ h → h < w →
      ∃ x1 y1 x2 y2 : ℕ, x1 < w ∧ y1 < h ∧ x2 < w ∧ y2 < h ∧
        (x1, y1) ≠ (x2, y2) ∧
        (∀ (m : Mat ℚ), m.width = w → m.height = h → ∀ v : ℚ,
          getXY (setXY m (x1 : ℤ) (y1 : ℤ) v) (x2 : ℤ) (y2 : ℤ) = v)) ∧
    (w = h →
      (∀ x1 y1 x2 y2 : ℕ, x1 < w → y1 < h → x2 < w → y2 < h →
        (y1 : ℤ) * (h : ℤ) + (x1 : ℤ) = (y2 : ℤ) * (h : ℤ) + (x2 : ℤ) →
        (x1, y1) = (x2, y2)) ∧
      (∀ i : ℕ, i < w * h → ∃ x y : ℕ, x < w ∧ y < h ∧ y * h + x = i)) := by
  constructor
  · intro h2 hlt
    refine ⟨h, 0, 0, 1, hlt, by omega, by omega, by omega, by simp, ?_⟩
    intro m hw hh v
    show (setFlat m (cellIndex m ((h : ℕ) : ℤ) ((0 : ℕ) : ℤ)) v).cells _ = v
    rw [setFlat_cells, if_pos]
    show cellIndex (setFlat m _ v) ((0 : ℕ) : ℤ) ((1 : ℕ) : ℤ) =
      cellIndex m ((h : ℕ) : ℤ) ((0 : ℕ) : ℤ)
    simp only [cellIndex, setFlat_height, hh]
    push_cast
    ring
  · intro hwh
    constructor
    · intro x1 y1 x2 y2 hx1 _ hx2 _ heq
      have heq' : y1 * h + x1 = y2 * h + x2 := by exact_mod_cast heq
      obtain ⟨e1, e2⟩ := index_inj (hwh ▸ hx1) (hwh ▸ hx2) heq'
      rw [e1, e2]
    · intro i hi
      have hh : 0 < h := by
        rcases Nat.eq_zero_or_pos h with rfl | hp
        · rw [hwh] at hi; omega
        · exact hp
      refine ⟨i % h, i / h, ?_, ?_, ?_⟩
      · rw [hwh]; exact Nat.mod_lt _ hh
      · rw [Nat.div_lt_iff_lt_mul hh]; rw [hwh] at hi; exact hi
      · rw [Nat.mul_comm]; exact Nat.div_add_mod i h

/-- Counterexample to C10 as stated: on a 2×1 grid (`width > height`) the
flat-index map is injective on in-range coordinates. -/
theorem cellIndex_injective_on_wide_one_row_counterexample :
    ¬ ∃ x1 y1 x2 y2 : ℕ, x1 < 2 ∧ y1 < 1 ∧ x2 < 2 ∧ y2 < 1 ∧
      (x1, y1) ≠ (x2, y2) ∧
      cellIndex (makeMatrix 2 1 (0 : ℚ)) (x1 : ℤ) (y1 : ℤ) =
        cellIndex (makeMatrix 2 1 (0 : ℚ)) (x2 : ℤ) (y2 : ℤ) := by
  rintro ⟨x1, y1, x2, y2, hx1, hy1, hx2, hy2, hne, heq⟩
  simp only [cellIndex, makeMatrix] at heq
  have e1 : y1 = 0 := by omega
  have e2 : y2 = 0 := by omega
  have e3 : x1 = x2 := by
    subst e1; subst e2
    push_cast at heq
    omega
  exact hne (by rw [e1, e2, e3])

/-- Witness for C10 at a 3×2 grid (collision part) and a 2×2 grid
(injectivity part). -/
theorem cellIndex_collision_dichotomy_witness :
    (∃ x1 y1 x2 y2 : ℕ, x1 < 3 ∧ y1 < 2 ∧ x2 < 3 ∧ y2 < 2 ∧
      (x1, y1) ≠ (x2, y2) ∧
      (∀ (m : Mat ℚ), m.width = 3 → m.height = 2 → ∀ v : ℚ,
        getXY (setXY m (x1 : ℤ) (y1 : ℤ) v) (x2 : ℤ) (y2 : ℤ) = v)) ∧
    (∀ x1 y1 x2 y2 : ℕ, x1 < 2 → y1 < 2 → x2 < 2 → y2 < 2 →
      (y1 : ℤ) * ((2 : ℕ) : ℤ) + (x1 : ℤ) = (y2 : ℤ) * ((2 : ℕ) : ℤ) + (x2 : ℤ) →
      (x1, y1) = (x2, y2)) :=
  ⟨(cellIndex_collision_dichotomy 3 2).1 (by norm_num) (by norm_num),
   ((cellIndex_collision_dichotomy 2 2).2 rfl).1⟩

/-! ## Normalization on square grids (C7, C8) -/

theorem getXY_nat (m : Mat α) (x y : ℕ) :
    getXY m (x : ℤ) (y : ℤ) = m.cells ((y * m.height + x : ℕ) : ℤ) :=
  congrArg m.cells (by rw [cellIndex]; push_cast; ring)

theorem index_surj {h i : ℕ} (hi : i < h * h) :
    ∃ x y : ℕ, x < h ∧ y < h ∧ y * h + x = i := by
  rcases Nat.eq_zero_or_pos h with rfl | hh
  · omega
  · refine ⟨i % h, i / h, Nat.mod_lt _ hh, (Nat.div_lt_iff_lt_mul hh).mpr hi, ?_⟩
    rw [Nat.mul_comm]
    exact Nat.div_add_mod i h

theorem mapMatrix_cells_untouched (m : Mat α) (fn : α → ℕ → ℕ → α) (j : ℤ)
    (hall : ∀ p ∈ pairList m.width m.height,
      (p.2 : ℤ) * (m.height : ℤ) + (p.1 : ℤ) ≠ j) :
    (mapMatrix m fn).cells j = m.cells j :=
  foldl_mapStep_untouched m fn m.height j _ (copyMatrix m) rfl hall

theorem foldl_mapStep_cells_cases (m : Mat α) (fn : α → ℕ → ℕ → α) :
    ∀ (l : List (ℕ × ℕ)) (acc : Mat α) (j : ℤ),
      (l.foldl (mapStep m fn) acc).cells j = acc.cells j ∨
      ∃ p ∈ l, (l.foldl (mapStep m fn) acc).cells j =
        fn (getXY m (p.1 : ℤ) (p.2 : ℤ)) p.1 p.2 := by
  intro l
  induction l with
  | nil => intro acc j; exact Or.inl rfl
  | cons p l ih =>
    intro acc j
    rw [List.foldl_cons]
    rcases ih (mapStep m fn acc p) j with h | h
    · by_cases hj : j = cellIndex acc (p.1 : ℤ) (p.2 : ℤ)
      · refine Or.inr ⟨p, List.mem_cons_self _ _, ?_⟩
        rw [h]
        show (setFlat _ _ _).cells j = _
        rw [setFlat_cells, if_pos hj]
      · refine Or.inl ?_
        rw [h]
        show (setFlat _ _ _).cells j = _
        rw [setFlat_cells, if_neg hj]
    · obtain ⟨q, hq, he⟩ := h
      exact Or.inr ⟨q, List.mem_cons_of_mem _ hq, he⟩

/-- Cells of `normalizeMatrix` on a well-formed square grid: every in-range
flat index holds the original cell divided by the maximum. -/
theorem normalizeMatrix_cells_sq [LinearOrder α] [Div α] (g : Mat α)
    (hwf : g.length = g.width * g.height) (hsq : g.width = g.height)
    (i : ℕ) (hi : i < g.length) :
    (normalizeMatrix g).cells (i : ℤ) = g.cells (i : ℤ) / maxValueOf g := by
  have hi' : i < g.height * g.height := by rw [hwf, hsq] at hi; exact hi
  obtain ⟨x, y, hx, hy, hxy⟩ := index_surj hi'
  have hcast : ((y : ℤ) * (g.height : ℤ) + (x : ℤ)) = ((i : ℕ) : ℤ) := by
    rw [← hxy]; push_cast; ring
  have hmain := mapMatrix_cells_of_le g (fun v _ _ => v / maxValueOf g)
    (le_of_eq hsq) x y (hsq ▸ hx) hy
  rw [normalizeMatrix]
  rw [← hcast, hmain, getXY, cellIndex]

/-- Normalizing a well-formed square grid with positive maximum yields a
grid whose `maxValueOf` is exactly 1. -/
theorem maxValueOf_normalizeMatrix_sq (g : Mat ℚ)
    (hwf : g.length = g.width * g.height) (hsq : g.width = g.height)
    (hlen : 0 < g.length) (hpos : 0 < maxValueOf g) :
    maxValueOf (normalizeMatrix g) = 1 := by
  have hlen' : (normalizeMatrix g).length = g.length :=
    mapMatrix_length_of_height_le g _ hwf (le_of_eq hsq.symm)
  apply maxValueOf_eq
  · rw [hlen']; exact hlen
  · intro i hi
    rw [hlen'] at hi
    rw [show (normalizeMatrix g).cells (i : ℤ) = g.cells (i : ℤ) / maxValueOf g
      from normalizeMatrix_cells_sq g hwf hsq i hi]
    exact (div_le_one hpos).mpr (le_maxValueOf g i hi)
  · obtain ⟨i0, hi0, he⟩ := maxValueOf_attained g hlen
    refine ⟨i0, by rw [hlen']; exact hi0, ?_⟩
    rw [normalizeMatrix_cells_sq g hwf hsq i0 hi0, ← he,
      div_self (ne_of_gt hpos)]

/-- C7 (amended): on a well-formed square grid with **positive** maximum,
normalization is idempotent cell for cell.  (On non-square grids, and on
grids whose maximum is negative, it is not — see the counterexample.) -/
theorem normalize_idempotent_on_square (g : Mat ℚ)
    (hwf : g.length = g.width * g.height) (hsq : g.width = g.height)
    (hpos : 0 < maxValueOf g) :
    ∀ x y : ℕ, x < g.width → y < g.height →
      getXY (normalizeMatrix (normalizeMatrix g)) (x : ℤ) (y : ℤ) =
        getXY (normalizeMatrix g) (x : ℤ) (y : ℤ) := by
  intro x y hx hy
  have hwpos : 0 < g.width := lt_of_le_of_lt (Nat.zero_le x) hx
  have hhpos : 0 < g.height := lt_of_le_of_lt (Nat.zero_le y) hy
  have hlen : 0 < g.length := by rw [hwf]; exact Nat.mul_pos hwpos hhpos
  have hlen' : (normalizeMatrix g).length = g.length :=
    mapMatrix_length_of_height_le g _ hwf (le_of_eq hsq.symm)
  have hnwf : (normalizeMatrix g).length =
      (normalizeMatrix g).width * (normalizeMatrix g).height := by
    rw [hlen', normalizeMatrix_width, normalizeMatrix_height, hwf]
  have hnsq : (normalizeMatrix g).width = (normalizeMatrix g).height := by
    rw [normalizeMatrix_width, normalizeMatrix_height]; exact hsq
  have hmax1 : maxValueOf (normalizeMatrix g) = 1 :=
    maxValueOf_normalizeMatrix_sq g hwf hsq hlen hpos
  have hi : y * g.height + x < g.length := by
    rw [hwf]; exact index_lt_of_height_le hx hy (le_of_eq hsq.symm)
  have hi' : y * g.height + x < (normalizeMatrix g).length := by
    rw [hlen']; exact hi
  rw [getXY_nat, getXY_nat]
  simp only [normalizeMatrix_height]
  rw [normalizeMatrix_cells_sq (normalizeMatrix g) hnwf hnsq _ hi', hmax1,
    div_one]

/-- Witness for C7 (amended) on the constant 2×2 grid of value 4. -/
theorem normalize_idempotent_on_square_witness :
    0 < maxValueOf (makeMatrix 2 2 (4 : ℚ)) ∧
    getXY (normalizeMatrix (normalizeMatrix (makeMatrix 2 2 (4 : ℚ))))
        ((0 : ℕ) : ℤ) ((0 : ℕ) : ℤ) =
      getXY (normalizeMatrix (makeMatrix 2 2 (4 : ℚ)))
        ((0 : ℕ) : ℤ) ((0 : ℕ) : ℤ) := by
  have hm : maxValueOf (makeMatrix 2 2 (4 : ℚ)) = 4 :=
    maxValueOf_eq _ 4 (by norm_num [makeMatrix]) (fun i _ => le_of_eq rfl)
      ⟨0, by norm_num [makeMatrix], rfl⟩
  refine ⟨by rw [hm]; norm_num, ?_⟩
  exact normalize_idempotent_on_square (makeMatrix 2 2 (4 : ℚ)) rfl rfl
    (by rw [hm]; norm_num) 0 0 (by norm_num [makeMatrix])
    (by norm_num [makeMatrix])

/-- C8 (amended): normalizing a well-formed **square** grid with at least
one positive cell yields maximum exactly 1.  (On non-square grids this
fails — see the counterexample.) -/
theorem maxValueOf_normalize_eq_one_on_square (g : Mat ℚ)
    (hwf : g.length = g.width * g.height) (hsq : g.width = g.height)
    (hpos : ∃ x y : ℕ, x < g.width ∧ y < g.height ∧
      0 < getXY g (x : ℤ) (y : ℤ)) :
    maxValueOf (normalizeMatrix g) = 1 := by
  obtain ⟨x, y, hx, hy, hv⟩ := hpos
  have hwpos : 0 < g.width := lt_of_le_of_lt (Nat.zero_le x) hx
  have hhpos : 0 < g.height := lt_of_le_of_lt (Nat.zero_le y) hy
  have hlen : 0 < g.length := by rw [hwf]; exact Nat.mul_pos hwpos hhpos
  have hi : y * g.height + x < g.length := by
    rw [hwf]; exact index_lt_of_height_le hx hy (le_of_eq hsq.symm)
  have hmaxpos : 0 < maxValueOf g := by
    rw [getXY_nat] at hv
    exact lt_of_lt_of_le hv (le_maxValueOf g _ hi)
  exact maxValueOf_normalizeMatrix_sq g hwf hsq hlen hmaxpos

/-- Witness for C8 (amended) on the constant 2×2 grid of value 4. -/
theorem maxValueOf_normalize_eq_one_on_square_witness :
    (∃ x y : ℕ, x < (makeMatrix 2 2 (4 : ℚ)).width ∧
      y < (makeMatrix 2 2 (4 : ℚ)).height ∧
      0 < getXY (makeMatrix 2 2 (4 : ℚ)) (x : ℤ) (y : ℤ)) ∧
    maxValueOf (normalizeMatrix (makeMatrix 2 2 (4 : ℚ))) = 1 := by
  have hex : ∃ x y : ℕ, x < (makeMatrix 2 2 (4 : ℚ)).width ∧
      y < (makeMatrix 2 2 (4 : ℚ)).height ∧
      0 < getXY (makeMatrix 2 2 (4 : ℚ)) (x : ℤ) (y : ℤ) :=
    ⟨0, 0, by norm_num [makeMatrix], by norm_num [makeMatrix],
     by norm_num [getXY, makeMatrix]⟩
  exact ⟨hex, maxValueOf_normalize_eq_one_on_square _ rfl rfl hex⟩

/-- Test fixture for the non-square counterexamples: the constant 3×2 grid
of value 100 (every cell of `new Array(6).fill(100)`). -/
def wideGrid : Mat ℚ := makeMatrix 3 2 100

theorem wideGrid_max : maxValueOf wideGrid = 100 :=
  maxValueOf_eq _ 100 (by norm_num [wideGrid, makeMatrix])
    (fun i _ => le_of_eq rfl) ⟨0, by norm_num [wideGrid, makeMatrix], rfl⟩

theorem wideGrid_norm_cells_zero : (normalizeMatrix wideGrid).cells 0 = 1 := by
  have h := foldl_mapStep_cells_unique wideGrid
    (fun v _ _ => v / maxValueOf wideGrid) 2 0 0
    (pairList wideGrid.width wideGrid.height) (copyMatrix wideGrid) rfl
    (pairList_mem.mpr ⟨by decide, by decide⟩) (pairList_nodup _ _) ?_
  · have e00 : ((0 : ℕ) : ℤ) * ((2 : ℕ) : ℤ) + ((0 : ℕ) : ℤ) = (0 : ℤ) := by
      norm_num
    rw [e00] at h
    refine h.trans ?_
    show (100 : ℚ) / maxValueOf wideGrid = 1
    rw [wideGrid_max]
    norm_num
  · rintro ⟨a, b⟩ hp heq
    obtain ⟨ha, hb⟩ := pairList_mem.mp hp
    have ha' : a < 3 := ha
    have hb' : b < 2 := hb
    simp only [Prod.mk.injEq]
    push_cast at heq
    omega

theorem wideGrid_norm_cells_five :
    (normalizeMatrix wideGrid).cells 5 = 100 := by
  have h := mapMatrix_cells_untouched wideGrid
    (fun v _ _ => v / maxValueOf wideGrid) 5 ?_
  · exact h
  · rintro ⟨a, b⟩ hp
    obtain ⟨ha, hb⟩ := pairList_mem.mp hp
    have ha' : a < 3 := ha
    have hb' : b < 2 := hb
    show (b : ℤ) * ((2 : ℕ) : ℤ) + (a : ℤ) ≠ 5
    push_cast
    omega

theorem wideGrid_norm_length : (normalizeMatrix wideGrid).length = 6 :=
  mapMatrix_length_of_height_le wideGrid _ rfl (by decide)

theorem wideGrid_norm_max : maxValueOf (normalizeMatrix wideGrid) = 100 := by
  apply maxValueOf_eq
  · rw [wideGrid_norm_length]; norm_num
  · intro i _
    rcases foldl_mapStep_cells_cases wideGrid
      (fun v _ _ => v / maxValueOf wideGrid)
      (pairList wideGrid.width wideGrid.height) (copyMatrix wideGrid)
      (i : ℤ) with h | ⟨p, -, h⟩
    · exact le_of_eq (h.trans rfl)
    · refine le_trans (le_of_eq (h.trans ?_)) (by norm_num : (1 : ℚ) ≤ 100)
      show (100 : ℚ) / maxValueOf wideGrid = 1
      rw [wideGrid_max]
      norm_num
  · exact ⟨5, by rw [wideGrid_norm_length]; norm_num, wideGrid_norm_cells_five⟩

theorem wideGrid_norm2_cells_zero :
    (normalizeMatrix (normalizeMatrix wideGrid)).cells 0 = 1 / 100 := by
  have h := foldl_mapStep_cells_unique (normalizeMatrix wideGrid)
    (fun v _ _ => v / maxValueOf (normalizeMatrix wideGrid)) 2 0 0
    (pairList (normalizeMatrix wideGrid).width
      (normalizeMatrix wideGrid).height)
    (copyMatrix (normalizeMatrix wideGrid)) rfl
    (pairList_mem.mpr ⟨by rw [normalizeMatrix_width]; decide,
      by rw [normalizeMatrix_height]; decide⟩) (pairList_nodup _ _) ?_
  · have e00 : ((0 : ℕ) : ℤ) * ((2 : ℕ) : ℤ) + ((0 : ℕ) : ℤ) = (0 : ℤ) := by
      norm_num
    rw [e00] at h
    refine h.trans ?_
    have hg : getXY (normalizeMatrix wideGrid) ((0 : ℕ) : ℤ) ((0 : ℕ) : ℤ) = 1 := by
      rw [getXY_nat]
      simpa using wideGrid_norm_cells_zero
    show getXY (normalizeMatrix wideGrid) ((0 : ℕ) : ℤ) ((0 : ℕ) : ℤ) /
      maxValueOf (normalizeMatrix wideGrid) = 1 / 100
    rw [hg, wideGrid_norm_max]
  · rintro ⟨a, b⟩ hp heq
    obtain ⟨ha, hb⟩ := pairList_mem.mp hp
    have ha' : a < 3 := by rw [normalizeMatrix_width] at ha; exact ha
    have hb' : b < 2 := by rw [normalizeMatrix_height] at hb; exact hb
    simp only [Prod.mk.injEq]
    push_cast at heq
    omega

/-- Counterexample to C7 as stated: the constant 3×2 grid of value 100 has
nonzero maximum, yet double normalization changes cell (0,0) from 1 to
1/100 (index 2 aliases under `y*height+x` and index 5 is never written, so
`maxValueOf` of the normalized grid is still 100). -/
theorem normalize_not_idempotent_counterexample :
    maxValueOf wideGrid ≠ 0 ∧
    getXY (normalizeMatrix (normalizeMatrix wideGrid)) 0 0 ≠
      getXY (normalizeMatrix wideGrid) 0 0 := by
  constructor
  · rw [wideGrid_max]; norm_num
  · have e1 : cellIndex (normalizeMatrix (normalizeMatrix wideGrid))
        (0 : ℤ) (0 : ℤ) = 0 := by simp [cellIndex]
    have e2 : cellIndex (normalizeMatrix wideGrid) (0 : ℤ) (0 : ℤ) = 0 := by
      simp [cellIndex]
    rw [getXY, getXY, e1, e2, wideGrid_norm2_cells_zero,
      wideGrid_norm_cells_zero]
    norm_num

/-- Counterexample to C8 as stated: the constant 3×2 grid of value 100 has
a positive cell, yet `maxValueOf (normalize g)` is 100, not 1, because flat
index 5 is unreachable by `y*height+x` on a 3×2 grid and keeps its raw
value. -/
theorem maxValueOf_normalize_counterexample :
    (∃ x y : ℕ, x < wideGrid.width ∧ y < wideGrid.height ∧
      0 < getXY wideGrid (x : ℤ) (y : ℤ)) ∧
    maxValueOf (normalizeMatrix wideGrid) ≠ 1 := by
  constructor
  · exact ⟨0, 0, by decide, by decide, by norm_num [getXY, wideGrid, makeMatrix]⟩
  · rw [wideGrid_norm_max]; norm_num

/-! ## C6: seed validation -/

/-- The spec's condition on one seed component: an integer in [1, 30000]. -/
def ValidSeedComponent (x : ℚ) : Prop :=
  (∃ n : ℤ, x = (n : ℚ)) ∧ 1 ≤ x ∧ x ≤ 30000

theorem rat_den_one_iff (x : ℚ) : x.den = 1 ↔ ∃ n : ℤ, x = (n : ℚ) := by
  constructor
  · intro h
    refine ⟨x.num, ?_⟩
    conv_lhs => rw [← Rat.num_div_den x]
    rw [h]
    norm_num
  · rintro ⟨n, rfl⟩
    exact Rat.den_intCast n

theorem validate_char (x : ℚ) :
    (ValidSeedComponent x ∧ validateWichmannHillStateInteger x = some x) ∨
    (¬ ValidSeedComponent x ∧ validateWichmannHillStateInteger x = none) := by
  unfold validateWichmannHillStateInteger
  by_cases h1 : x.den = 1
  · by_cases h2 : 1 ≤ x
    · by_cases h3 : x ≤ 30000
      · exact Or.inl ⟨⟨(rat_den_one_iff x).mp h1, h2, h3⟩,
          by rw [if_pos h1, if_pos h2, if_pos h3]⟩
      · exact Or.inr ⟨fun h => h3 h.2.2,
          by rw [if_pos h1, if_pos h2, if_neg h3]⟩
    · exact Or.inr ⟨fun h => h2 h.2.1, by rw [if_pos h1, if_neg h2]⟩
  · exact Or.inr ⟨fun h => h1 ((rat_den_one_iff x).mpr h.1),
      by rw [if_neg h1]⟩

theorem valid_num_cast {x : ℚ} (h : ValidSeedComponent x) :
    ((x.num : ℤ) : ℚ) = x := by
  obtain ⟨⟨n, rfl⟩, -, -⟩ := h
  simp

theorem withSeed_none_iff (a b c : ℚ) :
    withSeed (a, b, c) = none ↔
      ¬(ValidSeedComponent a ∧ ValidSeedComponent b ∧ ValidSeedComponent c) := by
  rcases validate_char a with ⟨hva, hea⟩ | ⟨hva, hea⟩ <;>
    rcases validate_char b with ⟨hvb, heb⟩ | ⟨hvb, heb⟩ <;>
      rcases validate_char c with ⟨hvc, hec⟩ | ⟨hvc, hec⟩ <;>
        simp [withSeed, hea, heb, hec, hva, hvb, hvc]

theorem withSeed_some_state (a b c : ℚ) (g : WHState)
    (hg : withSeed (a, b, c) = some g) :
    (g.s1 : ℚ) = a ∧ (g.s2 : ℚ) = b ∧ (g.s3 : ℚ) = c := by
  rcases validate_char a with ⟨hva, hea⟩ | ⟨hva, hea⟩ <;>
    rcases validate_char b with ⟨hvb, heb⟩ | ⟨hvb, heb⟩ <;>
      rcases validate_char c with ⟨hvc, hec⟩ | ⟨hvc, hec⟩ <;>
        simp [withSeed, hea, heb, hec] at hg
  rw [← hg]
  exact ⟨valid_num_cast hva, valid_num_cast hvb, valid_num_cast hvc⟩

/-- C6: constructing a generator from a 3-element seed fails exactly when
some component is not an integer or lies outside [1, 30000]; on success the
generator's initial state equals the seed triple. -/
theorem withSeed_fails_iff_invalid (a b c : ℚ) :
    (withSeed (a, b, c) = none ↔
      ¬(ValidSeedComponent a ∧ ValidSeedComponent b ∧ ValidSeedComponent c)) ∧
    (∀ g : WHState, withSeed (a, b, c) = some g →
      (g.s1 : ℚ) = a ∧ (g.s2 : ℚ) = b ∧ (g.s3 : ℚ) = c) :=
  ⟨withSeed_none_iff a b c, fun g hg => withSeed_some_state a b c g hg⟩

/-- Witness for C6: seed (0, 1, 1) is rejected; seed (100, 100, 100) is
accepted with state (100, 100, 100). -/
theorem withSeed_fails_iff_invalid_witness :
    withSeed (0, 1, 1) = none ∧
    ∃ g : WHState, withSeed (100, 100, 100) = some g ∧
      (g.s1 : ℚ) = 100 ∧ (g.s2 : ℚ) = 100 ∧ (g.s3 : ℚ) = 100 := by
  constructor
  · refine (withSeed_fails_iff_invalid 0 1 1).1.mpr ?_
    rintro ⟨⟨-, h, -⟩, -⟩
    norm_num at h
  · have hv : ValidSeedComponent (100 : ℚ) :=
      ⟨⟨100, by norm_num⟩, by norm_num, by norm_num⟩
    have hne : withSeed (100, 100, 100) ≠ none := fun h =>
      ((withSeed_fails_iff_invalid 100 100 100).1.mp h) ⟨hv, hv, hv⟩
    obtain ⟨g, hg⟩ := Option.ne_none_iff_exists'.mp hne
    exact ⟨g, hg, (withSeed_fails_iff_invalid 100 100 100).2 g hg⟩

/-! ## C5: a step with zero stamps on an all-zero grid -/

theorem foldl_mapStep_cells_all_eq (m : Mat α) (fn : α → ℕ → ℕ → α) (z : α)
    (hm : ∀ j : ℤ, m.cells j = z) (hf : ∀ x y : ℕ, fn z x y = z) :
    ∀ (l : List (ℕ × ℕ)) (acc : Mat α), (∀ j : ℤ, acc.cells j = z) →
      ∀ j : ℤ, (l.foldl (mapStep m fn) acc).cells j = z := by
  intro l
  induction l with
  | nil => intro acc hacc j; exact hacc j
  | cons p l ih =>
    intro acc hacc j
    rw [List.foldl_cons]
    refine ih _ ?_ j
    intro j'
    show (setFlat _ _ _).cells j' = z
    rw [setFlat_cells]
    split
    · rw [getXY, hm, hf]
    · exact hacc j'

theorem mapMatrix_cells_all_eq (m : Mat α) (fn : α → ℕ → ℕ → α) (z : α)
    (hm : ∀ j : ℤ, m.cells j = z) (hf : ∀ x y : ℕ, fn z x y = z) :
    ∀ j : ℤ, (mapMatrix m fn).cells j = z :=
  foldl_mapStep_cells_all_eq m fn z hm hf _ (copyMatrix m) hm

/-- C5: a frame with zero stamps on the all-zero 4×4 grid performs no
accumulation, yields an output grid with all cells equal (the degenerate
all-zero normalization: every cell is divided by the zero maximum, which in
this exact-arithmetic model is the junk value 0 where IEEE arithmetic
yields NaN), and leaves the persistent grid all zero after the decay
multiplication. -/
theorem animate_zero_stamps_degenerate :
    (stampLoop 0 (makeMatrix 4 4 (0 : ℝ), ⟨1, 1, 1⟩)).1 =
      makeMatrix 4 4 (0 : ℝ) ∧
    (∀ i j : ℤ,
      (animate (makeMatrix 4 4 (0 : ℝ)) ⟨1, 1, 1⟩ 0 1 (1 / 2)).1.cells i =
        (animate (makeMatrix 4 4 (0 : ℝ)) ⟨1, 1, 1⟩ 0 1 (1 / 2)).1.cells j) ∧
    (∀ i : ℤ,
      (animate (makeMatrix 4 4 (0 : ℝ)) ⟨1, 1, 1⟩ 0 1 (1 / 2)).2.1.cells i = 0) := by
  have hm0 : ∀ j : ℤ, (makeMatrix 4 4 (0 : ℝ)).cells j = 0 := fun _ => rfl
  have hnorm : ∀ j : ℤ,
      (normalizeMatrix (makeMatrix 4 4 (0 : ℝ))).cells j = 0 :=
    mapMatrix_cells_all_eq _ _ 0 hm0 (fun _ _ => zero_div _)
  have hout : ∀ j : ℤ,
      (mapMatrix (normalizeMatrix (makeMatrix 4 4 (0 : ℝ)))
        (fun v _ _ => Real.rpow v 1)).cells j = 0 :=
    mapMatrix_cells_all_eq _ _ 0 hnorm (fun _ _ => Real.rpow_one 0)
  have hdecay : ∀ j : ℤ,
      (mapMatrix (makeMatrix 4 4 (0 : ℝ))
        (fun v _ _ => v * (1 - (1 - (1 / 2 : ℝ)) ^ 8))).cells j = 0 :=
    mapMatrix_cells_all_eq _ _ 0 hm0 (fun _ _ => zero_mul _)
  refine ⟨rfl, ?_, ?_⟩
  · intro i j
    have h1 : (animate (makeMatrix 4 4 (0 : ℝ)) ⟨1, 1, 1⟩ 0 1 (1 / 2)).1.cells i
        = 0 := hout i
    have h2 : (animate (makeMatrix 4 4 (0 : ℝ)) ⟨1, 1, 1⟩ 0 1 (1 / 2)).1.cells j
        = 0 := hout j
    rw [h1, h2]
  · intro i
    exact hdecay i

/-! ## C2: the blob kernel -/

theorem cap_eq : cap = Real.sqrt 128 := by rw [cap]; norm_num

theorem cap_pos : 0 < cap := by
  rw [cap_eq]
  exact Real.sqrt_pos.mpr (by norm_num)

theorem blobPre_cells (x y : ℕ) (hx : x < 17) (hy : y < 17) :
    blobPre.cells ((y : ℤ) * ((17 : ℕ) : ℤ) + (x : ℤ)) =
      (1 - Real.sqrt (((x : ℝ) - 8) ^ 2 + ((y : ℝ) - 8) ^ 2) / cap * 1.1) ^ 2 := by
  have hh : (makeMatrix 17 17 (0 : ℝ)).height = (17 : ℕ) := rfl
  have h := mapMatrix_cells_of_le (makeMatrix 17 17 (0 : ℝ)) blobFn
    le_rfl x y hx hy
  rw [hh] at h
  exact h

theorem blobPre_length : blobPre.length = 289 :=
  (mapMatrix_length_of_height_le (makeMatrix 17 17 (0 : ℝ)) blobFn rfl
    le_rfl).trans rfl

theorem blobPre_width : blobPre.width = 17 := mapMatrix_width _ _

theorem blobPre_height : blobPre.height = 17 := mapMatrix_height _ _

theorem blobPre_wf : blobPre.length = blobPre.width * blobPre.height := by
  rw [blobPre_length, blobPre_width, blobPre_height]

theorem blobFn_le_one (v : ℝ) (x y : ℕ) (hx : x < 17) (hy : y < 17) :
    blobFn v x y ≤ 1 := by
  rw [blobFn]
  set d : ℝ := ((x : ℝ) - 8) ^ 2 + ((y : ℝ) - 8) ^ 2 with hd
  have hx' : (x : ℝ) ≤ 16 := by exact_mod_cast Nat.lt_succ_iff.mp hx
  have hy' : (y : ℝ) ≤ 16 := by exact_mod_cast Nat.lt_succ_iff.mp hy
  have hx0 : (0 : ℝ) ≤ (x : ℝ) := Nat.cast_nonneg x
  have hy0 : (0 : ℝ) ≤ (y : ℝ) := Nat.cast_nonneg y
  have hd2 : d ≤ 128 := by rw [hd]; nlinarith
  have hs0 : 0 ≤ Real.sqrt d / cap * 1.1 :=
    mul_nonneg (div_nonneg (Real.sqrt_nonneg d) (le_of_lt cap_pos))
      (by norm_num)
  have hsqrt_le : Real.sqrt d ≤ cap := by
    rw [cap_eq]
    exact Real.sqrt_le_sqrt hd2
  have hdiv : Real.sqrt d / cap ≤ 1 := (div_le_one cap_pos).mpr hsqrt_le
  have hs2 : Real.sqrt d / cap * 1.1 ≤ 2 := by nlinarith
  nlinarith [mul_nonneg hs0 (sub_nonneg.mpr hs2)]

theorem mapMatrix_cells_cases (m : Mat α) (fn : α → ℕ → ℕ → α) (j : ℤ) :
    (mapMatrix m fn).cells j = m.cells j ∨
    ∃ p ∈ pairList m.width m.height, (mapMatrix m fn).cells j =
      fn (getXY m (p.1 : ℤ) (p.2 : ℤ)) p.1 p.2 := by
  rcases foldl_mapStep_cells_cases m fn (pairList m.width m.height)
    (copyMatrix m) j with h | ⟨p, hp, h⟩
  · exact Or.inl h
  · exact Or.inr ⟨p, hp, h⟩

theorem blobPre_max : maxValueOf blobPre = 1 := by
  apply maxValueOf_eq
  · rw [blobPre_length]; norm_num
  · intro i _
    rcases mapMatrix_cells_cases (makeMatrix 17 17 (0 : ℝ)) blobFn
      (i : ℤ) with h | ⟨p, hp, h⟩
    · have h0 : blobPre.cells (i : ℤ) = 0 := h.trans rfl
      rw [h0]; norm_num
    · obtain ⟨h1, h2⟩ := pairList_mem.mp hp
      have h1' : p.1 < 17 := h1
      have h2' : p.2 < 17 := h2
      have he : blobPre.cells (i : ℤ) =
          blobFn (getXY (makeMatrix 17 17 (0 : ℝ)) (p.1 : ℤ) (p.2 : ℤ))
            p.1 p.2 := h
      rw [he]
      exact blobFn_le_one _ p.1 p.2 h1' h2'
  · refine ⟨144, by rw [blobPre_length]; norm_num, ?_⟩
    have h := blobPre_cells 8 8 (by norm_num) (by norm_num)
    have hidx : ((8 : ℕ) : ℤ) * ((17 : ℕ) : ℤ) + ((8 : ℕ) : ℤ) =
        ((144 : ℕ) : ℤ) := by push_cast
    rw [hidx] at h
    rw [h]
    have hz : (((8 : ℕ) : ℝ) - 8) ^ 2 + (((8 : ℕ) : ℝ) - 8) ^ 2 = 0 := by
      push_cast; norm_num
    rw [hz, Real.sqrt_zero, zero_div, zero_mul]
    norm_num

/-- C2 (amended): the pre-normalization 17×17 grid holds
`(1 − (distance((x,y),(8,8)) / cap) · 1.1)²` (the `1.1` factor multiplies
the distance ratio; the claim's `distance/(cap·1.1)` divides by it),
`cap = √128`; its maximum is 1, so the final kernel is the same grid scaled
by 0.1. -/
theorem blob_cells_formula (x y : ℕ) (hx : x < 17) (hy : y < 17) :
    maxValueOf blobPre = 1 ∧
    getXY blob (x : ℤ) (y : ℤ) =
      0.1 * (1 - Real.sqrt (((x : ℝ) - 8) ^ 2 + ((y : ℝ) - 8) ^ 2) /
        Real.sqrt 128 * 1.1) ^ 2 := by
  refine ⟨blobPre_max, ?_⟩
  have hnw : (normalizeMatrix blobPre).width = 17 := by
    rw [normalizeMatrix_width, blobPre_width]
  have hnh : (normalizeMatrix blobPre).height = 17 := by
    rw [normalizeMatrix_height, blobPre_height]
  have hn : y * 17 + x < 289 := by omega
  have hn' : y * 17 + x < blobPre.length := by rw [blobPre_length]; exact hn
  have hidx : ((y : ℤ) * ((17 : ℕ) : ℤ) + (x : ℤ)) = ((y * 17 + x : ℕ) : ℤ) := by
    push_cast; ring
  have hbh : blob.height = 17 := by
    have : blob.height = (normalizeMatrix blobPre).height :=
      mapMatrix_height (normalizeMatrix blobPre) blobScale
    rw [this, hnh]
  have step2 := mapMatrix_cells_of_le (normalizeMatrix blobPre) blobScale
    (by rw [hnw, hnh]) x y (by rw [hnw]; exact hx) (by rw [hnh]; exact hy)
  rw [hnh, hidx] at step2
  have step3 : getXY (normalizeMatrix blobPre) (x : ℤ) (y : ℤ) =
      blobPre.cells ((y * 17 + x : ℕ) : ℤ) := by
    have h17 : y * (normalizeMatrix blobPre).height + x = y * 17 + x := by
      rw [hnh]
    rw [getXY_nat, h17,
      normalizeMatrix_cells_sq blobPre blobPre_wf
        (blobPre_width.trans blobPre_height.symm) (y * 17 + x) hn',
      blobPre_max, div_one]
  have step4 : blobPre.cells ((y * 17 + x : ℕ) : ℤ) =
      (1 - Real.sqrt (((x : ℝ) - 8) ^ 2 + ((y : ℝ) - 8) ^ 2) / cap * 1.1) ^ 2 := by
    rw [← hidx]
    exact blobPre_cells x y hx hy
  have hfinal : blob.cells ((y * 17 + x : ℕ) : ℤ) =
      blobScale (getXY (normalizeMatrix blobPre) (x : ℤ) (y : ℤ)) x y := step2
  have hgoal : getXY blob (x : ℤ) (y : ℤ) = blob.cells ((y * 17 + x : ℕ) : ℤ) := by
    rw [getXY_nat, hbh]
  rw [hgoal, hfinal, blobScale, step3, step4, ← cap_eq]
  ring

/-- Witness for C2 (amended) at the corner cell (0, 0). -/
theorem blob_cells_formula_witness :
    maxValueOf blobPre = 1 ∧
    getXY blob ((0 : ℕ) : ℤ) ((0 : ℕ) : ℤ) =
      0.1 * (1 - Real.sqrt ((((0 : ℕ) : ℝ) - 8) ^ 2 + (((0 : ℕ) : ℝ) - 8) ^ 2) /
        Real.sqrt 128 * 1.1) ^ 2 :=
  blob_cells_formula 0 0 (by norm_num) (by norm_num)

/-- Counterexample to C2 as stated: at the corner (0,0) the code's cell is
`(1 − (√128/√128)·1.1)² = 1/100`, while the claim's formula
`(1 − √128/(cap·1.1))²` equals `1/121`; the two differ because the code's
`/ cap * 1.1` multiplies the distance ratio by 1.1 instead of dividing the
cap by it. -/
theorem blob_formula_counterexample :
    blobPre.cells 0 ≠
      (1 - Real.sqrt (((0 : ℝ) - 8) ^ 2 + ((0 : ℝ) - 8) ^ 2) / (cap * 1.1)) ^ 2 := by
  have h := blobPre_cells 0 0 (by norm_num) (by norm_num)
  have hidx : ((0 : ℕ) : ℤ) * ((17 : ℕ) : ℤ) + ((0 : ℕ) : ℤ) = (0 : ℤ) := by
    norm_num
  rw [hidx] at h
  rw [h]
  have hcapne : cap ≠ 0 := ne_of_gt cap_pos
  have harg : ((((0 : ℕ) : ℝ)) - 8) ^ 2 + ((((0 : ℕ) : ℝ)) - 8) ^ 2 = 128 := by
    push_cast; norm_num
  have harg2 : (((0 : ℝ)) - 8) ^ 2 + (((0 : ℝ)) - 8) ^ 2 = 128 := by norm_num
  rw [harg, harg2, ← cap_eq, div_self hcapne, div_mul_eq_div_div,
    div_self hcapne]
  norm_num
